import Mathlib

/-!
# fstk — Stack Repository Engine: a shallow embedding with verified properties

This file embeds the core of the `fstk` stack-store program in Lean 4 and
proves properties of the embedded definitions.

* The relational store (SQLite tables `stack_items`, `tags`, `item_tags`,
  `src/db/schema.rs`) is modelled as a `DB` structure holding the three
  tables as lists of rows.  Rows of `stack_items` are kept in rowid
  (= `id`) order, the order in which SQLite stores and scans them; a
  `SELECT` without `ORDER BY` on these tables returns rows in that scan
  order, which is how the query results are modelled below.
* `ItemManager.list`, `ItemManager.get_id_by_display_number`,
  `ItemManager.delete` (`src/db/item.rs`), `find_or_create_tag`,
  `TagManager.add_to_item`, `TagManager.remove_from_item`,
  `TagManager.cleanup_orphaned_tags` (`src/db/tag.rs`) are translated
  function by function.
* `Vec::sort_by` with the comparator `b.pushed_at.cmp(&a.pushed_at)` is a
  stable sort; it is modelled by the stable insertion sort
  `sortByPushedDesc` (a stable sort's output is determined by the
  comparator and the input order, so any stable sort models it).
* `parse_number_range` (`src/utils/numbers.rs`) is translated with an
  explicit model of Rust's `str::parse::<usize>` (optional leading `+`,
  ASCII digits, 64-bit bound).
* The batch engines of `src/cli/pop.rs` and `src/cli/remove.rs` are
  modelled as pure functions; the outcome of each I/O call that the code
  inspects (destination conflict, storage-path resolution, source
  existence, move result, filesystem deletion result, database errors,
  interactive answers) is supplied by a per-item environment record, and
  each per-item pass also emits a trace of the externally visible steps
  it performed, in order.
-/

namespace Fstk

/-! ## Relational store: rows and database state (src/db/schema.rs) -/

/-- A row of the `stack_items` table.  `pushed_at` is a second-precision
timestamp (`DATETIME DEFAULT CURRENT_TIMESTAMP`), modelled as an integer
number of seconds; comparison of the parsed `DateTime` values in the code
is comparison of these integers. -/
structure ItemRow where
  id : Int
  original_name : String
  original_path : String
  stored_hash : String
  item_type : String
  pushed_at : Int
  deriving Repr, DecidableEq

/-- A row of the `tags` table. -/
structure TagRow where
  id : Int
  name : String
  deriving Repr, DecidableEq

/-- A row of the `item_tags` association table. -/
structure AssocRow where
  item_id : Int
  tag_id : Int
  deriving Repr, DecidableEq

/-- The database state: the three tables, each as its list of rows in
rowid order (the order a full scan returns). -/
structure DB where
  items : List ItemRow
  tags : List TagRow
  assocs : List AssocRow
  deriving Repr, DecidableEq

/-- Well-formedness of a database state, as enforced by the schema:
`stack_items` rows are in strictly increasing `id` (rowid) order, tag ids
and tag names are unique, association rows are unique composite keys, and
both foreign keys of `item_tags` resolve. -/
structure DB.Wf (db : DB) : Prop where
  items_sorted : db.items.Pairwise (fun a b => a.id < b.id)
  tag_ids_nodup : (db.tags.map TagRow.id).Nodup
  tag_names_nodup : (db.tags.map TagRow.name).Nodup
  assocs_nodup : db.assocs.Nodup
  assoc_item_fk : ∀ a ∈ db.assocs, ∃ it ∈ db.items, it.id = a.item_id
  assoc_tag_fk : ∀ a ∈ db.assocs, ∃ t ∈ db.tags, t.id = a.tag_id

/-- Rust `str::split(sep)`: split on every occurrence of the separator,
keeping empty pieces; an empty input yields one empty piece. -/
def splitChar (sep : Char) : List Char → List (List Char)
  | [] => [[]]
  | c :: cs =>
    match splitChar sep cs with
    | [] => [[c]]
    | t :: ts => if c = sep then [] :: t :: ts else (c :: t) :: ts

/-- Rust `str::trim`: drop whitespace from both ends. -/
def trimChars (cs : List Char) : List Char :=
  ((cs.dropWhile Char.isWhitespace).reverse.dropWhile Char.isWhitespace).reverse

/-! ## Tag queries (src/db/tag.rs) -/

/-- The tag names associated with an item: the join of `item_tags` with
`tags` restricted to `item_id` (the row set behind both
`TagManager::get_for_item` and the filtering subquery of
`ItemManager::list`). -/
def itemTagNames (db : DB) (itemId : Int) : List String :=
  (db.assocs.filter (fun a => a.item_id = itemId)).filterMap
    (fun a => (db.tags.find? (fun t => t.id = a.tag_id)).map TagRow.name)

/-- Does the item carry a tag with the given name? -/
def hasTagNamed (db : DB) (itemId : Int) (n : String) : Bool :=
  (itemTagNames db itemId).contains n

/-- `COUNT(DISTINCT t.name)` over the join rows of the filtering subquery
of `ItemManager::list` for one item: the number of distinct requested
names the item carries. -/
def matchingTagCount (db : DB) (req : List String) (itemId : Int) : Nat :=
  (req.dedup.filter (fun n => hasTagNamed db itemId n)).length

/-! ## ItemManager::list (src/db/item.rs lines 174-227) -/

/-- `ItemManager::list`: with no requested tags, a full scan of
`stack_items`; otherwise the scan filtered by
`id IN (SELECT item_id ... HAVING COUNT(DISTINCT t.name) = ?)` where the
compared count parameter is the *length* of the requested tag list. -/
def ItemManager.list (db : DB) (tags : List String) : List ItemRow :=
  if tags.isEmpty then db.items
  else db.items.filter (fun it => matchingTagCount db tags it.id = tags.length)

/-! ## The display sort (`all_items.sort_by(|a, b| b.pushed_at.cmp(&a.pushed_at))`)

`Vec::sort_by` is stable; the comparator orders by `pushed_at`
descending only.  The stable insertion sort below has the same output on
every input. -/

/-- Stable insertion into a list sorted by `pushed_at` descending: the new
element goes in front of the first element whose `pushed_at` is `≤` its
own (so it lands *after* earlier elements with an equal timestamp). -/
def insertByPushedDesc (a : ItemRow) : List ItemRow → List ItemRow
  | [] => [a]
  | b :: bs => if b.pushed_at ≤ a.pushed_at then a :: b :: bs
               else b :: insertByPushedDesc a bs

/-- The display sort: stable sort by `pushed_at` descending. -/
def sortByPushedDesc : List ItemRow → List ItemRow
  | [] => []
  | a :: rest => insertByPushedDesc a (sortByPushedDesc rest)

/-! ## ItemManager::get_id_by_display_number (src/db/item.rs lines 230-253) -/

/-- `ItemManager::get_id_by_display_number`: fetch `list(tags)`, return
`None` on an empty list, sort by `pushed_at` descending, and return the
id at index `display_number - 1` when `0 < display_number ≤ len`, `None`
otherwise. -/
def ItemManager.get_id_by_display_number (db : DB) (display_number : Nat)
    (tags : List String) : Option Int :=
  let items := ItemManager.list db tags
  if items.isEmpty then none
  else
    let sorted := sortByPushedDesc items
    if display_number ≤ sorted.length ∧ display_number > 0 then
      (sorted[display_number - 1]?).map ItemRow.id
    else none

/-! ## Spec-side display resolution (for the refinement claim C1)

The spec describes the resolver as sorting by pushed-at descending with
ties broken by ascending durable id.  The definitions below follow the
spec's words and exist only to be compared with the code-derived
`ItemManager.get_id_by_display_number`. -/

/-- The spec's display order on items: earlier means strictly newer
`pushed_at`, or an equal `pushed_at` and a strictly smaller id, or the
same timestamp and id. -/
def specDisplayLe (a b : ItemRow) : Bool :=
  b.pushed_at < a.pushed_at ∨ (a.pushed_at = b.pushed_at ∧ a.id ≤ b.id)

/-- Insertion step of the spec-side sort by `specDisplayLe`. -/
def specInsertDisplay (a : ItemRow) : List ItemRow → List ItemRow
  | [] => [a]
  | b :: bs => if specDisplayLe a b then a :: b :: bs
               else b :: specInsertDisplay a bs

/-- The spec's display ordering of a snapshot: sort by pushed-at
descending, ties broken by ascending durable id. -/
def specSortDisplay : List ItemRow → List ItemRow
  | [] => []
  | a :: rest => specInsertDisplay a (specSortDisplay rest)

/-! ## TagManager::cleanup_orphaned_tags (src/db/tag.rs lines 99-117) -/

/-- `TagManager::cleanup_orphaned_tags`: for each candidate tag id in
order, count its remaining association rows; when the count is zero,
delete the tag row (the `ON DELETE CASCADE` of `item_tags.tag_id` also
drops association rows of that tag — there are none under the zero-count
guard, but the cascade is part of the delete and is modelled).  Returns
the updated database and the number of tag rows deleted. -/
def TagManager.cleanup_orphaned_tags (db : DB) : List Int → DB × Nat
  | [] => (db, 0)
  | tid :: rest =>
    let cnt := (db.assocs.filter (fun a => a.tag_id = tid)).length
    if cnt = 0 then
      let affected := (db.tags.filter (fun t => t.id = tid)).length
      let db1 : DB := { db with
        tags := db.tags.filter (fun t => ¬ t.id = tid),
        assocs := db.assocs.filter (fun a => ¬ a.tag_id = tid) }
      let r := TagManager.cleanup_orphaned_tags db1 rest
      (r.1, affected + r.2)
    else TagManager.cleanup_orphaned_tags db rest

/-! ## ItemManager::delete (src/db/item.rs lines 256-277) -/

/-- `ItemManager::get_tag_ids_for_item`: the tag ids associated with an
item, in scan order of `item_tags`. -/
def ItemManager.get_tag_ids_for_item (db : DB) (itemId : Int) : List Int :=
  (db.assocs.filter (fun a => a.item_id = itemId)).map AssocRow.tag_id

/-- `ItemManager::delete`: read the item's tag ids, then in one
transaction delete the item row (the `ON DELETE CASCADE` of
`item_tags.item_id` drops its association rows) and, when a row was
deleted and the tag id list is nonempty, clean up the orphaned candidate
tags.  Returns whether a row was deleted, with the new state. -/
def ItemManager.delete (db : DB) (id : Int) : Bool × DB :=
  let tag_ids := ItemManager.get_tag_ids_for_item db id
  let result := (db.items.filter (fun it => it.id = id)).length
  let db1 : DB := { db with
    items := db.items.filter (fun it => ¬ it.id = id),
    assocs := db.assocs.filter (fun a => ¬ a.item_id = id) }
  let db2 := if result > 0 ∧ ¬ tag_ids.isEmpty then
      (TagManager.cleanup_orphaned_tags db1 tag_ids).1
    else db1
  (result > 0, db2)

/-! ## find_or_create_tag (src/db/tag.rs lines 4-14) -/

/-- The rowid SQLite assigns to a new `tags` row
(`INTEGER PRIMARY KEY AUTOINCREMENT`): one more than the largest id ever
used; modelled as one more than the largest current id (ids are never
reused while rows exist, and no claim depends on ids of re-created
tags). -/
def freshTagId (db : DB) : Int :=
  (db.tags.foldl (fun m t => max m t.id) 0) + 1

/-- `find_or_create_tag`: exact (case-sensitive) lookup by name; insert a
fresh row when absent.  Returns the tag id and the new state. -/
def find_or_create_tag (db : DB) (name : String) : Int × DB :=
  match db.tags.find? (fun t => t.name = name) with
  | some t => (t.id, db)
  | none =>
    let newId := freshTagId db
    (newId, { db with tags := db.tags ++ [⟨newId, name⟩] })

/-! ## TagManager::add_to_item (src/db/tag.rs lines 38-62) -/

/-- `TagManager::add_to_item`: one transaction; for each tag name, trim
it and skip it when empty, find-or-create the tag, then
`INSERT OR IGNORE` the association (affecting one row exactly when the
association was absent).  Returns the number of newly inserted
associations and the new state. -/
def TagManager.add_to_item (db : DB) (itemId : Int) :
    List String → Nat × DB
  | [] => (0, db)
  | tag :: rest =>
    let t := trimChars tag.data
    if t.isEmpty then TagManager.add_to_item db itemId rest
    else
      let fc := find_or_create_tag db (String.mk t)
      let present := fc.2.assocs.any
        (fun a => a.item_id = itemId ∧ a.tag_id = fc.1)
      let affected := if present then 0 else 1
      let db2 : DB := if present then fc.2
        else { fc.2 with assocs := fc.2.assocs ++ [⟨itemId, fc.1⟩] }
      let r := TagManager.add_to_item db2 itemId rest
      (affected + r.1, r.2)

/-! ## TagManager::remove_from_item (src/db/tag.rs lines 65-96) -/

/-- The per-tag loop of `TagManager::remove_from_item`: for each tag
name, trim and skip empties, look the tag up by name (skip when absent),
delete the matching association rows, and record the count and the tag id
when any row was affected.  Returns (total removed, removed tag ids in
order, new state). -/
def TagManager.removeLoop (db : DB) (itemId : Int) :
    List String → Nat × List Int × DB
  | [] => (0, [], db)
  | tag :: rest =>
    let t := trimChars tag.data
    if t.isEmpty then TagManager.removeLoop db itemId rest
    else
      match db.tags.find? (fun tr => tr.name = String.mk t) with
      | none => TagManager.removeLoop db itemId rest
      | some tr =>
        let affected := (db.assocs.filter
          (fun a => a.item_id = itemId ∧ a.tag_id = tr.id)).length
        let keep := fun (a : AssocRow) => ¬ (a.item_id = itemId ∧ a.tag_id = tr.id)
        let db1 : DB := { db with assocs := db.assocs.filter keep }
        let r := TagManager.removeLoop db1 itemId rest
        if affected > 0 then (affected + r.1, tr.id :: r.2.1, r.2.2)
        else (r.1, r.2.1, r.2.2)

/-- `TagManager::remove_from_item`: one transaction; run the per-tag
deletion loop, then clean up the tags that lost associations.  Returns
the number of associations actually removed and the new state. -/
def TagManager.remove_from_item (db : DB) (itemId : Int)
    (tags : List String) : Nat × DB :=
  let r := TagManager.removeLoop db itemId tags
  let c := TagManager.cleanup_orphaned_tags r.2.2 r.2.1
  (r.1, c.1)

/-! ## parse_number_range (src/utils/numbers.rs lines 5-53)

The parser inspects its input character by character.  The Rust `&str`
operations it uses — `split(',')`, `split('-')`, `trim`,
`contains('-')`, `str::parse::<usize>` — are modelled at the character
level by the structurally recursive functions below (a token is a
`List Char`); the top-level entry point takes a `String` and works on
its character list. -/

/-- Rust's `str::parse::<usize>` on a token: an optional leading `+`,
then at least one ASCII digit, the value within the 64-bit `usize`
range. -/
def parseUsize (s : List Char) : Option Nat :=
  match s with
  | [] => none
  | c :: rest =>
    let ds := if c = '+' then rest else c :: rest
    if ds.isEmpty then none
    else if ds.all Char.isDigit then
      let v := ds.foldl (fun acc d => acc * 10 + (d.toNat - 48)) 0
      if v < 2 ^ 64 then some v else none
    else none

/-- Ascending insertion for the final `result.sort()`. -/
def insertNatLe (n : Nat) : List Nat → List Nat
  | [] => [n]
  | m :: ms => if n ≤ m then n :: m :: ms else m :: insertNatLe n ms

/-- Ascending sort of the collected numbers (`result.sort()`). -/
def sortNatLe : List Nat → List Nat
  | [] => []
  | n :: ns => insertNatLe n (sortNatLe ns)

/-- One iteration of the `for part in range_str.split(',')` loop of
`parse_number_range`: trim the part, skip it when empty; a part with a
`-` must split into exactly two number tokens `A-B` with `A ≤ B` and
contributes `A..=B`; any other part must be one number token.  The
accumulator stands for the `HashSet` (duplicates collapse at the end). -/
def processPart (acc : List Nat) (part0 : List Char) :
    Except String (List Nat) :=
  let part := trimChars part0
  if part.isEmpty then .ok acc
  else if part.contains '-' then
    match splitChar '-' part with
    | [sa, sb] =>
      match parseUsize (trimChars sa) with
      | none => .error ("Invalid number in range: " ++ String.mk sa)
      | some start =>
        match parseUsize (trimChars sb) with
        | none => .error ("Invalid number in range: " ++ String.mk sb)
        | some stop =>
          if start > stop then
            .error ("Invalid range: " ++ toString start ++ " > " ++ toString stop)
          else .ok (acc ++ List.range' start (stop + 1 - start))
    | _ => .error ("Invalid range format: " ++ String.mk part)
  else
    match parseUsize part with
    | some n => .ok (acc ++ [n])
    | none => .error ("Invalid number: " ++ String.mk part)

/-- The part loop of `parse_number_range`: the first error aborts. -/
def parseLoop (acc : List Nat) : List (List Char) → Except String (List Nat)
  | [] => .ok acc
  | p :: ps =>
    match processPart acc p with
    | .error e => .error e
    | .ok acc1 => parseLoop acc1 ps

/-- `parse_number_range`: split on `,`, run the part loop, then sort the
collected set ascending and fail when it is empty. -/
def parse_number_range (range_str : String) : Except String (List Nat) :=
  match parseLoop [] (splitChar ',' range_str.data) with
  | .error e => .error e
  | .ok nums =>
    let result := sortNatLe nums.dedup
    if result.isEmpty then .error "No valid numbers in range expression"
    else .ok result

/-! ### Spec-side characterization of the range grammar (for claim C4)

`termNumbers` follows the spec's grammar, amended to what the code
accepts: a term is trimmed; an empty term denotes nothing (it is
skipped); a term with a `-` must be a two-sided range `A-B` with `A ≤ B`
over number tokens; any other term is one number token; a number token
is what Rust's `usize` parse accepts (so `0` and a leading `+` are
allowed).  `specParseNumbers` succeeds exactly when every term is valid
and at least one number is denoted, returning the denoted numbers
deduplicated and sorted ascending. -/

/-- The numbers one comma-separated term denotes, `none` when invalid. -/
def termNumbers (part0 : List Char) : Option (List Nat) :=
  let part := trimChars part0
  if part.isEmpty then some []
  else if part.contains '-' then
    match splitChar '-' part with
    | [sa, sb] =>
      match parseUsize (trimChars sa), parseUsize (trimChars sb) with
      | some a, some b =>
        if a ≤ b then some (List.range' a (b + 1 - a)) else none
      | _, _ => none
    | _ => none
  else (parseUsize part).map (fun n => [n])

/-- All numbers denoted by a list of terms (invalid terms contribute
nothing; `specParseNumbers` requires them all to be valid anyway). -/
def joinDenotations (parts : List (List Char)) : List Nat :=
  (parts.map (fun p => (termNumbers p).getD [])).flatten

/-- Spec-side reading of the grammar: the canonical result, or `none`
when some term is invalid or no number is denoted. -/
def specParseNumbers (s : String) : Option (List Nat) :=
  let parts := splitChar ',' s.data
  if parts.all (fun p => (termNumbers p).isSome) then
    let nums := joinDenotations parts
    if nums.isEmpty then none else some (sortNatLe nums.dedup)
  else none

/-! ## The batch operation engines (src/cli/pop.rs, src/cli/remove.rs)

Each per-item pass of the batch loops inspects the results of a fixed
set of I/O calls; those results are supplied by an environment record
per item.  The pass also emits the list of externally visible steps it
performed, in program order, which is what the step-order claims are
about. -/

/-- One externally visible step of a per-item batch pass. -/
inductive BatchStep
  | checkConflict   -- fs::check_destination_conflict(&dest_path)
  | resolvePath     -- get_stored_path(&item.stored_hash)
  | verifySource    -- source_path.exists()
  | fsMove          -- fs::move_or_copy(&source_path, &dest_path)
  | dbDelete        -- ItemManager::delete(&mut conn, item.id)
  | undoMove        -- compensation fs::move_or_copy(&dest_path, &source_path)
  | fsDelete        -- fs::remove_file / fs::remove_dir_all(&source_path)
  deriving Repr, DecidableEq

/-- The fate of one item of a batch. -/
inductive ItemOutcome
  | success         -- counted in success_count
  | successMissing  -- remove only: row deleted, artifact already absent
                    -- ("file was already removed" message); counted in
                    -- success_count
  | skipped         -- pop only: conflict skipped on user confirmation
  | failed          -- counted in failed_count
  | hardError       -- pop, single item: conflict returns Err at once
  deriving Repr, DecidableEq

/-- Results of the I/O calls one pop batch iteration inspects. -/
structure PopItemEnv where
  destConflict : Bool  -- check_destination_conflict result
  skipAnswer : Bool    -- "Skip this item? [Y/n]" (true unless n/no)
  resolveOk : Bool     -- get_stored_path succeeded
  sourceExists : Bool  -- source_path.exists()
  moveOk : Bool        -- fs::move_or_copy succeeded
  dbErr : Bool         -- ItemManager::delete returned Err
  deriving Repr, DecidableEq

/-- Results of the I/O calls one remove batch iteration inspects. -/
structure RemoveItemEnv where
  resolveOk : Bool     -- get_stored_path succeeded
  dbErr : Bool         -- ItemManager::delete returned Err
  sourceExists : Bool  -- source_path.exists()
  fsDeleteOk : Bool    -- fs::remove_file / remove_dir_all succeeded
  deriving Repr, DecidableEq

/-- One iteration of the pop batch loop (src/cli/pop.rs lines 150-232):
conflict check first (skip/fail via prompt when the batch has more than
one item, hard error otherwise), then storage path resolution, then the
source existence check, then the move, then the database delete, with a
best-effort undo move when the delete does not report `Ok(true)`. -/
def popProcessItem (db : DB) (multi : Bool) (env : PopItemEnv)
    (item : ItemRow) : ItemOutcome × DB × List BatchStep :=
  if env.destConflict then
    if multi then
      if env.skipAnswer then (.skipped, db, [.checkConflict])
      else (.failed, db, [.checkConflict])
    else (.hardError, db, [.checkConflict])
  else if ¬ env.resolveOk then (.failed, db, [.checkConflict, .resolvePath])
  else if ¬ env.sourceExists then
    (.failed, db, [.checkConflict, .resolvePath, .verifySource])
  else if ¬ env.moveOk then
    (.failed, db, [.checkConflict, .resolvePath, .verifySource, .fsMove])
  else if env.dbErr then
    (.failed, db,
      [.checkConflict, .resolvePath, .verifySource, .fsMove, .dbDelete, .undoMove])
  else
    let d := ItemManager.delete db item.id
    if d.1 then
      (.success, d.2,
        [.checkConflict, .resolvePath, .verifySource, .fsMove, .dbDelete])
    else
      (.failed, d.2,
        [.checkConflict, .resolvePath, .verifySource, .fsMove, .dbDelete, .undoMove])

/-- One iteration of the remove batch loop (src/cli/remove.rs lines
66-120): storage path resolution, then the database delete, and only
when the row was deleted the source existence check followed by the
filesystem deletion — an absent artifact is the `successMissing`
message branch. -/
def removeProcessItem (db : DB) (env : RemoveItemEnv) (item : ItemRow) :
    ItemOutcome × DB × List BatchStep :=
  if ¬ env.resolveOk then (.failed, db, [.resolvePath])
  else if env.dbErr then (.failed, db, [.resolvePath, .dbDelete])
  else
    let d := ItemManager.delete db item.id
    if d.1 then
      if env.sourceExists then
        if env.fsDeleteOk then
          (.success, d.2, [.resolvePath, .dbDelete, .verifySource, .fsDelete])
        else
          (.failed, d.2, [.resolvePath, .dbDelete, .verifySource, .fsDelete])
      else (.successMissing, d.2, [.resolvePath, .dbDelete, .verifySource])
    else (.failed, d.2, [.resolvePath, .dbDelete])

/-- The shared snapshot both batch commands take before resolving any
ordinal: `list(tags)` sorted by `pushed_at` descending. -/
def snapshotSorted (db : DB) (tags : List String) : List ItemRow :=
  sortByPushedDesc (ItemManager.list db tags)

/-- The `for &number in &number_list` resolution loop of both batch
commands: each in-range ordinal is paired with the snapshot element at
index `number - 1` and queued for processing; each out-of-range ordinal
is reported ("No item found with number=…") and excluded.  Returns the
queue and the reported ordinals, each in loop order. -/
def mapOrdinals (sorted : List ItemRow) :
    List Nat → List (Nat × ItemRow) × List Nat
  | [] => ([], [])
  | n :: rest =>
    let r := mapOrdinals sorted rest
    if h : 0 < n ∧ n ≤ sorted.length then
      ((n, sorted.get ⟨n - 1, by omega⟩) :: r.1, r.2)
    else (r.1, n :: r.2)

/-- The success/skip/failure counters of a batch run. -/
structure BatchCounts where
  succ : Nat
  skip : Nat
  fail : Nat
  deriving Repr, DecidableEq

/-- Add one item's fate to the counters (`success_count += 1`, …). -/
def BatchCounts.add (c : BatchCounts) : ItemOutcome → BatchCounts
  | .success => { c with succ := c.succ + 1 }
  | .successMissing => { c with succ := c.succ + 1 }
  | .skipped => { c with skip := c.skip + 1 }
  | .failed => { c with fail := c.fail + 1 }
  | .hardError => c

/-- The `Result<()>` a command returns. -/
inductive CmdResult
  | ok
  | err
  deriving Repr, DecidableEq

/-- The pop batch processing loop over the queued items; the boolean
reports the single-item-conflict hard error that returns `Err` at once,
abandoning the remaining items. -/
def popLoop (db : DB) (multi : Bool) (envs : Nat → PopItemEnv) (idx : Nat) :
    List (Nat × ItemRow) → BatchCounts × DB × Bool
  | [] => (⟨0, 0, 0⟩, db, false)
  | (_, item) :: rest =>
    let p := popProcessItem db multi (envs idx) item
    match p.1 with
    | .hardError => (⟨0, 0, 0⟩, p.2.1, true)
    | outc =>
      let r := popLoop p.2.1 multi envs (idx + 1) rest
      (BatchCounts.add r.1 outc, r.2)

/-- The batch path of `pop` (src/cli/pop.rs lines 77-247, the
`numbers.is_some()` case): parse the ordinal expression, take one sorted
snapshot, resolve every ordinal against it, fail when nothing resolved,
ask for confirmation when more than one item is queued (a declined
confirmation prints "Operation cancelled." and returns `Ok`), process
the queue, and succeed exactly when `success_count > 0`.  Returns the
result, the counters, the final store state, and whether the run was
cancelled at the confirmation prompt. -/
def popBatch (db : DB) (tags : List String) (numsStr : String)
    (confirm : Bool) (envs : Nat → PopItemEnv) :
    CmdResult × BatchCounts × DB × Bool :=
  match parse_number_range numsStr with
  | .error _ => (.err, ⟨0, 0, 0⟩, db, false)
  | .ok number_list =>
    let sorted := snapshotSorted db tags
    let m := mapOrdinals sorted number_list
    if m.1.isEmpty then (.err, ⟨0, 0, 0⟩, db, false)
    else if m.1.length > 1 ∧ ¬ confirm then (.ok, ⟨0, 0, 0⟩, db, true)
    else
      let r := popLoop db (m.1.length > 1) envs 0 m.1
      if r.2.2 then (.err, r.1, r.2.1, false)
      else if r.1.succ > 0 then (.ok, r.1, r.2.1, false)
      else (.err, r.1, r.2.1, false)

/-- The remove batch processing loop over the queued items. -/
def removeBatchLoop (db : DB) (envs : Nat → RemoveItemEnv) (idx : Nat) :
    List (Nat × ItemRow) → BatchCounts × DB
  | [] => (⟨0, 0, 0⟩, db)
  | (_, item) :: rest =>
    let p := removeProcessItem db (envs idx) item
    let r := removeBatchLoop p.2.1 envs (idx + 1) rest
    (BatchCounts.add r.1 p.1, r.2)

/-- `remove` (src/cli/remove.rs): parse the ordinal expression, take one
sorted snapshot, resolve every ordinal against it, fail when nothing
resolved, process the queue (no confirmation prompt), and succeed
exactly when `success_count > 0`. -/
def removeBatch (db : DB) (tags : List String) (numsStr : String)
    (envs : Nat → RemoveItemEnv) : CmdResult × BatchCounts × DB :=
  match parse_number_range numsStr with
  | .error _ => (.err, ⟨0, 0, 0⟩, db)
  | .ok number_list =>
    let sorted := snapshotSorted db tags
    let m := mapOrdinals sorted number_list
    if m.1.isEmpty then (.err, ⟨0, 0, 0⟩, db)
    else
      let r := removeBatchLoop db envs 0 m.1
      if r.1.succ > 0 then (.ok, r.1, r.2) else (.err, r.1, r.2)

/-! ## Supporting lemmas: the display sort -/

/-- The strict display order: strictly newer, or same time and strictly
smaller id. -/
def displayBefore (a b : ItemRow) : Prop :=
  b.pushed_at < a.pushed_at ∨ (a.pushed_at = b.pushed_at ∧ a.id < b.id)

theorem mem_insertByPushedDesc {x a : ItemRow} {l : List ItemRow} :
    x ∈ insertByPushedDesc a l ↔ x = a ∨ x ∈ l := by
  induction l with
  | nil => simp [insertByPushedDesc]
  | cons b bs ih =>
    simp only [insertByPushedDesc]
    split
    · simp [List.mem_cons]
    · simp only [List.mem_cons, ih]
      tauto

theorem insertByPushedDesc_perm (a : ItemRow) (l : List ItemRow) :
    (insertByPushedDesc a l).Perm (a :: l) := by
  induction l with
  | nil => exact List.Perm.refl _
  | cons b bs ih =>
    simp only [insertByPushedDesc]
    split
    · exact List.Perm.refl _
    · exact (ih.cons b).trans (List.Perm.swap a b bs)

theorem sortByPushedDesc_perm (l : List ItemRow) :
    (sortByPushedDesc l).Perm l := by
  induction l with
  | nil => exact List.Perm.refl _
  | cons a rest ih =>
    exact (insertByPushedDesc_perm a (sortByPushedDesc rest)).trans (ih.cons a)

theorem length_sortByPushedDesc (l : List ItemRow) :
    (sortByPushedDesc l).length = l.length :=
  (sortByPushedDesc_perm l).length_eq

theorem specSortDisplay_perm (l : List ItemRow) :
    (specSortDisplay l).Perm l := by
  have hins : ∀ (a : ItemRow) (l : List ItemRow),
      (specInsertDisplay a l).Perm (a :: l) := by
    intro a l
    induction l with
    | nil => exact List.Perm.refl _
    | cons b bs ih =>
      simp only [specInsertDisplay]
      split
      · exact List.Perm.refl _
      · exact (ih.cons b).trans (List.Perm.swap a b bs)
  induction l with
  | nil => exact List.Perm.refl _
  | cons a rest ih =>
    exact (hins a (specSortDisplay rest)).trans (ih.cons a)

theorem insertByPushedDesc_eq_spec {a : ItemRow} {l : List ItemRow}
    (h : ∀ b ∈ l, a.id < b.id) :
    insertByPushedDesc a l = specInsertDisplay a l := by
  induction l with
  | nil => rfl
  | cons b bs ih =>
    have hb : a.id < b.id := h b (List.mem_cons_self b bs)
    have hcond : (b.pushed_at ≤ a.pushed_at) ↔ (specDisplayLe a b = true) := by
      simp only [specDisplayLe, decide_eq_true_eq]
      constructor
      · intro hle
        rcases lt_or_eq_of_le hle with hlt | heq
        · exact Or.inl hlt
        · exact Or.inr ⟨heq.symm, le_of_lt hb⟩
      · rintro (hlt | ⟨heq, _⟩)
        · exact le_of_lt hlt
        · exact le_of_eq heq.symm
    simp only [insertByPushedDesc, specInsertDisplay]
    by_cases hc : b.pushed_at ≤ a.pushed_at
    · rw [if_pos hc, if_pos (hcond.mp hc)]
    · rw [if_neg hc, if_neg (fun hx => hc (hcond.mpr hx)),
        ih (fun x hx => h x (List.mem_cons_of_mem b hx))]

theorem sortByPushedDesc_eq_spec {l : List ItemRow}
    (h : l.Pairwise (fun a b => a.id < b.id)) :
    sortByPushedDesc l = specSortDisplay l := by
  induction l with
  | nil => rfl
  | cons a rest ih =>
    rcases List.pairwise_cons.mp h with ⟨ha, hrest⟩
    simp only [sortByPushedDesc, specSortDisplay]
    rw [ih hrest]
    exact insertByPushedDesc_eq_spec
      (fun b hb => ha b ((specSortDisplay_perm rest).mem_iff.mp hb))

theorem pairwise_insertByPushedDesc {a : ItemRow} {l : List ItemRow}
    (hl : l.Pairwise displayBefore) (h : ∀ b ∈ l, a.id < b.id) :
    (insertByPushedDesc a l).Pairwise displayBefore := by
  induction l with
  | nil => simp [insertByPushedDesc]
  | cons b bs ih =>
    rcases List.pairwise_cons.mp hl with ⟨hb_all, hbs⟩
    simp only [insertByPushedDesc]
    by_cases hc : b.pushed_at ≤ a.pushed_at
    · rw [if_pos hc]
      refine List.pairwise_cons.mpr ⟨?_, hl⟩
      intro x hx
      rcases List.mem_cons.mp hx with rfl | hx'
      · have hid : a.id < x.id := h x (List.mem_cons_self x bs)
        unfold displayBefore
        omega
      · have hid : a.id < x.id := h x (List.mem_cons_of_mem b hx')
        have hbx := hb_all x hx'
        unfold displayBefore at hbx ⊢
        omega
    · rw [if_neg hc]
      refine List.pairwise_cons.mpr ⟨?_, ih hbs
        (fun x hx => h x (List.mem_cons_of_mem b hx))⟩
      intro x hx
      rcases mem_insertByPushedDesc.mp hx with rfl | hx'
      · unfold displayBefore
        omega
      · exact hb_all x hx'

theorem sortByPushedDesc_pairwise {l : List ItemRow}
    (h : l.Pairwise (fun a b => a.id < b.id)) :
    (sortByPushedDesc l).Pairwise displayBefore := by
  induction l with
  | nil => simp [sortByPushedDesc]
  | cons a rest ih =>
    rcases List.pairwise_cons.mp h with ⟨ha, hrest⟩
    exact pairwise_insertByPushedDesc (ih hrest)
      (fun b hb => ha b ((sortByPushedDesc_perm rest).mem_iff.mp hb))

theorem list_pairwise_id {db : DB} (hwf : db.Wf) (tags : List String) :
    (ItemManager.list db tags).Pairwise (fun a b => a.id < b.id) := by
  unfold ItemManager.list
  split
  · exact hwf.items_sorted
  · exact hwf.items_sorted.filter _

/-! ## Claim C1 -/

/-- **C1**: for every tag filter and every in-range ordinal,
`get_id_by_display_number` computes its answer by fetching `list(tags)`,
sorting by pushed-at descending with ties broken by ascending durable
id, and returning the durable id at index `ordinal - 1` — the code's
result equals indexing the spec-side sort `specSortDisplay`; and in the
code's sorted snapshot, two items with equal pushed-at timestamps are
always ranked with the smaller id first. -/
theorem C1_display_number_resolution (db : DB) (tags : List String)
    (n : Nat) (hwf : db.Wf) (h1 : 1 ≤ n)
    (h2 : n ≤ (ItemManager.list db tags).length) :
    ItemManager.get_id_by_display_number db n tags
      = ((specSortDisplay (ItemManager.list db tags))[n - 1]?).map ItemRow.id
    ∧ (∀ i j : Nat, i < j → ∀ x y : ItemRow,
        (sortByPushedDesc (ItemManager.list db tags))[i]? = some x →
        (sortByPushedDesc (ItemManager.list db tags))[j]? = some y →
        x.pushed_at = y.pushed_at → x.id < y.id) := by
  constructor
  · unfold ItemManager.get_id_by_display_number
    have hne : (ItemManager.list db tags).isEmpty = false := by
      rcases h : ItemManager.list db tags with _ | ⟨a, l⟩
      · rw [h] at h2
        simp at h2
        omega
      · rfl
    have hlen : (sortByPushedDesc (ItemManager.list db tags)).length
        = (ItemManager.list db tags).length :=
      length_sortByPushedDesc _
    simp only [hne, Bool.false_eq_true, if_false]
    rw [if_pos (show n ≤ (sortByPushedDesc (ItemManager.list db tags)).length ∧ n > 0
      from by omega)]
    rw [sortByPushedDesc_eq_spec (list_pairwise_id hwf tags)]
  · intro i j hij x y hx hy heq
    have hpw := sortByPushedDesc_pairwise (list_pairwise_id hwf tags)
    rcases List.getElem?_eq_some.mp hx with ⟨hi, hxe⟩
    rcases List.getElem?_eq_some.mp hy with ⟨hj, hye⟩
    have := List.pairwise_iff_getElem.mp hpw i j hi hj hij
    rw [hxe, hye] at this
    unfold displayBefore at this
    omega

/-- A concrete store with two items pushed in the same second, for
instantiating the display-resolution theorems. -/
def dbTieW : DB :=
  ⟨[⟨1, "a.txt", "/home/u", "h1", "file", 5⟩,
    ⟨2, "b.txt", "/home/u", "h2", "file", 5⟩], [], []⟩

/-- Witness for C1: on `dbTieW` (a timestamp tie), ordinal 1 resolves to
the smaller id 1, by the theorem. -/
theorem C1_display_number_resolution_witness :
    dbTieW.Wf ∧ 1 ≤ 1 ∧ 1 ≤ (ItemManager.list dbTieW []).length ∧
      ItemManager.get_id_by_display_number dbTieW 1 [] = some 1 := by
  have hwf : dbTieW.Wf :=
    ⟨by decide, by decide, by decide, by decide, by decide, by decide⟩
  have h2 : 1 ≤ (ItemManager.list dbTieW []).length := by decide
  refine ⟨hwf, le_refl 1, h2, ?_⟩
  rw [(C1_display_number_resolution dbTieW [] 1 hwf (le_refl 1) h2).1]
  decide

/-! ## Claim C5 -/

/-- **C5**: an out-of-range ordinal (0, or beyond the filtered list's
length) resolves to `none` rather than an error; and the batch
resolution loop reports exactly the out-of-range ordinals while queueing
every in-range ordinal, in order — an out-of-range ordinal never aborts
the remaining ones. -/
theorem C5_out_of_range_resolution (db : DB) (tags : List String)
    (n : Nat) (nums : List Nat)
    (h : n = 0 ∨ (ItemManager.list db tags).length < n) :
    ItemManager.get_id_by_display_number db n tags = none
    ∧ (mapOrdinals (snapshotSorted db tags) nums).2
        = nums.filter
            (fun m => decide (¬ (0 < m ∧ m ≤ (snapshotSorted db tags).length)))
    ∧ (mapOrdinals (snapshotSorted db tags) nums).1.map Prod.fst
        = nums.filter
            (fun m => decide (0 < m ∧ m ≤ (snapshotSorted db tags).length)) := by
  refine ⟨?_, ?_, ?_⟩
  · unfold ItemManager.get_id_by_display_number
    rcases he : (ItemManager.list db tags).isEmpty with _ | _
    · have hlen : (sortByPushedDesc (ItemManager.list db tags)).length
          = (ItemManager.list db tags).length :=
        length_sortByPushedDesc _
      simp only [he, Bool.false_eq_true, if_false]
      rw [if_neg (by omega :
        ¬ (n ≤ (sortByPushedDesc (ItemManager.list db tags)).length ∧ n > 0))]
    · simp only [he, if_true]
  · induction nums with
    | nil => rfl
    | cons m ms ih =>
      simp only [mapOrdinals, List.filter_cons]
      by_cases hm : 0 < m ∧ m ≤ (snapshotSorted db tags).length
      · rw [dif_pos hm, decide_eq_false (not_not_intro hm),
          if_neg Bool.false_ne_true]
        exact ih
      · rw [dif_neg hm, decide_eq_true hm, if_pos rfl]
        simpa using ih
  · induction nums with
    | nil => rfl
    | cons m ms ih =>
      simp only [mapOrdinals, List.filter_cons]
      by_cases hm : 0 < m ∧ m ≤ (snapshotSorted db tags).length
      · rw [dif_pos hm, decide_eq_true hm, if_pos rfl]
        simpa using ih
      · rw [dif_neg hm, decide_eq_false hm, if_neg Bool.false_ne_true]
        exact ih

/-- Witness for C5: on `dbTieW`, ordinal 99 is out of range and resolves
to `none`; the loop over `[0, 1, 99]` reports 0 and 99 and queues 1. -/
theorem C5_out_of_range_resolution_witness :
    (99 = 0 ∨ (ItemManager.list dbTieW []).length < 99)
    ∧ ItemManager.get_id_by_display_number dbTieW 99 [] = none
    ∧ (mapOrdinals (snapshotSorted dbTieW []) [0, 1, 99]).2 = [0, 99] := by
  have h := C5_out_of_range_resolution dbTieW [] 99 [0, 1, 99]
    (Or.inr (by decide))
  refine ⟨Or.inr (by decide), h.1, ?_⟩
  rw [h.2.1]
  decide

/-! ## Claim C3 -/

/-- **C3 (amended)**: when the requested tag names are pairwise distinct,
`list(tags)` returns exactly the items whose tag set contains every
requested name (in particular `list([])` returns all items); but when the
requested list contains a duplicate name, the `COUNT(DISTINCT)`-vs-length
comparison can never be satisfied and `list` returns no items at all. -/
theorem C3_superset_tag_filtering (db : DB) (req : List String) :
    (req.Nodup →
      ItemManager.list db req
        = db.items.filter (fun it => req.all (fun n => hasTagNamed db it.id n)))
    ∧ (¬ req.Nodup → ItemManager.list db req = []) := by
  constructor
  · intro hnd
    unfold ItemManager.list
    rcases hr : req with _ | ⟨r, rs⟩
    · simp [List.filter_true]
    · rw [if_neg (by simp)]
      apply List.filter_congr
      intro it _
      have hd : (r :: rs).dedup = r :: rs := by
        rw [List.dedup_eq_self]
        rw [hr] at hnd
        exact hnd
      rw [Bool.eq_iff_iff, decide_eq_true_eq, List.all_eq_true]
      simp only [matchingTagCount, hd]
      exact List.filter_length_eq_length
  · intro hnd
    have hne : req ≠ [] := by
      intro hcon
      exact hnd (hcon ▸ List.nodup_nil)
    unfold ItemManager.list
    rw [if_neg (by simpa using hne)]
    rw [List.filter_eq_nil_iff]
    intro it _
    have h1 : req.dedup.length < req.length := by
      have hsub := List.dedup_sublist req
      have hle := hsub.length_le
      by_contra hcon
      exact hnd (List.dedup_eq_self.mp (hsub.eq_of_length (by omega)))
    have h2 : matchingTagCount db req it.id ≤ req.dedup.length :=
      List.length_filter_le _ _
    simp only [decide_eq_true_eq]
    omega

/-- A store with one item carrying tag `a`, for the duplicate-request
counterexample. -/
def dbDupTagW : DB := ⟨[⟨1, "f", "/p", "h", "file", 0⟩], [⟨1, "a"⟩], [⟨1, 1⟩]⟩

/-- Counterexample to C3 as stated: the single item of `dbDupTagW`
carries every name in the request `["a", "a"]` (its tag set is a superset
of {a}), yet `list(["a", "a"])` returns no items, because the query
compares the distinct-name count 1 against the request length 2. -/
theorem C3_counterexample :
    (⟨1, "f", "/p", "h", "file", 0⟩ : ItemRow) ∈ dbDupTagW.items
    ∧ (∀ n ∈ ["a", "a"], hasTagNamed dbDupTagW 1 n = true)
    ∧ ItemManager.list dbDupTagW ["a", "a"] = [] := by
  decide

/-- Witness for C3: the amended theorem instantiated on `dbDupTagW` for
an empty request, a duplicate-free request, and a duplicated request. -/
theorem C3_superset_tag_filtering_witness :
    ItemManager.list dbDupTagW [] = dbDupTagW.items
    ∧ ItemManager.list dbDupTagW ["a"] = dbDupTagW.items
    ∧ ItemManager.list dbDupTagW ["a", "a"] = [] := by
  have h1 := (C3_superset_tag_filtering dbDupTagW []).1 List.nodup_nil
  have h2 := (C3_superset_tag_filtering dbDupTagW ["a"]).1 (by decide)
  have h3 := (C3_superset_tag_filtering dbDupTagW ["a", "a"]).2 (by decide)
  refine ⟨?_, ?_, h3⟩
  · rw [h1]
    decide
  · rw [h2]
    decide

/-! ## Claim C4 -/

theorem dedup_eq_nil_iff {α : Type} [DecidableEq α] (l : List α) :
    l.dedup = [] ↔ l = [] := by
  constructor
  · intro h
    rcases l with _ | ⟨a, l'⟩
    · rfl
    · have hm : a ∈ (a :: l').dedup := List.mem_dedup.mpr (List.mem_cons_self a l')
      rw [h] at hm
      exact absurd hm (List.not_mem_nil a)
  · intro h
    rw [h]
    rfl

theorem sortNatLe_eq_nil_iff (l : List Nat) : sortNatLe l = [] ↔ l = [] := by
  rcases l with _ | ⟨n, ns⟩
  · simp [sortNatLe]
  · simp only [sortNatLe]
    constructor
    · intro h
      exfalso
      rcases hs : sortNatLe ns with _ | ⟨m, ms⟩
      · rw [hs] at h
        exact absurd h (by simp [insertNatLe])
      · rw [hs] at h
        unfold insertNatLe at h
        split at h <;> simp at h
    · intro h
      exact absurd h (by simp)

theorem processPart_ok {part0 : List Char} {d : List Nat}
    (h : termNumbers part0 = some d) (acc : List Nat) :
    processPart acc part0 = .ok (acc ++ d) := by
  unfold termNumbers at h
  unfold processPart
  dsimp only at h ⊢
  by_cases hempty : (trimChars part0).isEmpty = true
  · rw [if_pos hempty] at h ⊢
    rw [← Option.some.inj h, List.append_nil]
  · rw [if_neg hempty] at h ⊢
    by_cases hdash : (trimChars part0).contains '-' = true
    · rw [if_pos hdash] at h ⊢
      rcases hsp : splitChar '-' (trimChars part0) with _ | ⟨sa, rest⟩
      · rw [hsp] at h
        dsimp only at h
        exact Option.noConfusion h
      · rcases rest with _ | ⟨sb, rest2⟩
        · rw [hsp] at h
          dsimp only at h
          exact Option.noConfusion h
        · rcases rest2 with _ | ⟨s3, rest3⟩
          · rw [hsp] at h
            dsimp only at h ⊢
            rcases ha : parseUsize (trimChars sa) with _ | a
            · rw [ha] at h
              dsimp only at h
              exact Option.noConfusion h
            · rw [ha] at h
              rcases hb : parseUsize (trimChars sb) with _ | b
              · rw [hb] at h
                dsimp only at h
                exact Option.noConfusion h
              · rw [hb] at h
                dsimp only at h ⊢
                by_cases hle : a ≤ b
                · rw [if_pos hle] at h
                  rw [if_neg (by omega : ¬ a > b)]
                  rw [Option.some.inj h]
                · rw [if_neg hle] at h
                  exact Option.noConfusion h
          · rw [hsp] at h
            dsimp only at h
            exact Option.noConfusion h
    · rw [if_neg hdash] at h ⊢
      rcases hn : parseUsize (trimChars part0) with _ | n
      · rw [hn] at h
        dsimp only [Option.map] at h
        exact Option.noConfusion h
      · rw [hn] at h
        dsimp only [Option.map] at h ⊢
        rw [Option.some.inj h]

theorem processPart_err {part0 : List Char}
    (h : termNumbers part0 = none) (acc : List Nat) :
    ∃ e, processPart acc part0 = .error e := by
  unfold termNumbers at h
  unfold processPart
  dsimp only at h ⊢
  by_cases hempty : (trimChars part0).isEmpty = true
  · rw [if_pos hempty] at h
    exact Option.noConfusion h
  · rw [if_neg hempty] at h ⊢
    by_cases hdash : (trimChars part0).contains '-' = true
    · rw [if_pos hdash] at h ⊢
      rcases hsp : splitChar '-' (trimChars part0) with _ | ⟨sa, rest⟩
      · exact ⟨_, rfl⟩
      · rcases rest with _ | ⟨sb, rest2⟩
        · exact ⟨_, rfl⟩
        · rcases rest2 with _ | ⟨s3, rest3⟩
          · rw [hsp] at h
            dsimp only at h ⊢
            rcases ha : parseUsize (trimChars sa) with _ | a
            · exact ⟨_, rfl⟩
            · rw [ha] at h
              rcases hb : parseUsize (trimChars sb) with _ | b
              · dsimp only
                exact ⟨_, rfl⟩
              · rw [hb] at h
                dsimp only at h ⊢
                by_cases hle : a ≤ b
                · rw [if_pos hle] at h
                  exact Option.noConfusion h
                · rw [if_pos (by omega : a > b)]
                  exact ⟨_, rfl⟩
          · exact ⟨_, rfl⟩
    · rw [if_neg hdash] at h ⊢
      rcases hn : parseUsize (trimChars part0) with _ | n
      · exact ⟨_, rfl⟩
      · rw [hn] at h
        dsimp only [Option.map] at h
        exact Option.noConfusion h

theorem parseLoop_ok_iff (parts : List (List Char)) (acc l : List Nat) :
    parseLoop acc parts = .ok l ↔
      ((∀ p ∈ parts, (termNumbers p).isSome) ∧
        l = acc ++ joinDenotations parts) := by
  induction parts generalizing acc with
  | nil =>
    simp only [parseLoop, joinDenotations, List.map_nil, List.flatten_nil,
      List.append_nil]
    constructor
    · intro h
      exact ⟨fun p hp => absurd hp (List.not_mem_nil p), (Except.ok.inj h).symm⟩
    · rintro ⟨_, hl⟩
      rw [hl]
  | cons p ps ih =>
    rcases hd : termNumbers p with _ | d
    · constructor
      · intro h
        rcases processPart_err hd acc with ⟨e, he⟩
        rw [parseLoop, he] at h
        cases h
      · rintro ⟨hall, _⟩
        have := hall p (List.mem_cons_self p ps)
        rw [hd] at this
        cases this
    · rw [parseLoop, processPart_ok hd acc]
      rw [ih (acc ++ d)]
      constructor
      · rintro ⟨hall, hl⟩
        refine ⟨?_, ?_⟩
        · intro q hq
          rcases List.mem_cons.mp hq with rfl | hq'
          · rw [hd]
            rfl
          · exact hall q hq'
        · rw [hl]
          simp [joinDenotations, hd]
      · rintro ⟨hall, hl⟩
        refine ⟨fun q hq => hall q (List.mem_cons_of_mem p hq), ?_⟩
        rw [hl]
        simp [joinDenotations, hd]

/-- **C4 (amended)**: `parse_number_range` succeeds exactly when every
comma-separated term is valid under the code's grammar — empty terms are
skipped, a number token is what Rust's `usize` parse accepts (so `0` and
a leading `+` are allowed, only values up to `2^64 - 1`), and a term with
a `-` must be a two-sided range `A-B` with `A ≤ B` — and at least one
number is denoted; on success it returns the denoted numbers
deduplicated and sorted ascending. -/
theorem C4_range_parsing (s : String) (l : List Nat) :
    parse_number_range s = .ok l ↔ specParseNumbers s = some l := by
  unfold parse_number_range specParseNumbers
  dsimp only
  by_cases hall : ∀ p ∈ splitChar ',' s.data, (termNumbers p).isSome
  · rw [(parseLoop_ok_iff (splitChar ',' s.data) [] (joinDenotations (splitChar ',' s.data))).mpr
      ⟨hall, by simp⟩]
    dsimp only
    rw [if_pos (List.all_eq_true.mpr (fun p hp => hall p hp))]
    by_cases hje : joinDenotations (splitChar ',' s.data) = []
    · rw [if_pos (by
        simp only [List.isEmpty_iff]
        rw [sortNatLe_eq_nil_iff, dedup_eq_nil_iff]
        exact hje)]
      rw [if_pos (by simpa using hje)]
      constructor
      · intro h
        cases h
      · intro h
        cases h
    · rw [if_neg (by
        simp only [List.isEmpty_iff]
        rw [sortNatLe_eq_nil_iff, dedup_eq_nil_iff]
        exact hje)]
      rw [if_neg (by simpa using hje)]
      constructor
      · intro h
        cases h
        rfl
      · intro h
        cases h
        rfl
  · rw [if_neg (by
      intro hcon
      exact hall (fun p hp => List.all_eq_true.mp hcon p hp))]
    constructor
    · intro h
      rcases hpl : parseLoop [] (splitChar ',' s.data) with e | nums
      · rw [hpl] at h
        cases h
      · exact absurd ((parseLoop_ok_iff _ _ _).mp hpl).1 hall
    · intro h
      cases h

/-- Equality of `Except` results is decidable; used to evaluate the
parser on concrete inputs. -/
instance : DecidableEq (Except String (List Nat)) := fun a b =>
  match a, b with
  | .error e1, .error e2 =>
    if h : e1 = e2 then .isTrue (by rw [h]) else .isFalse (by
      intro hc
      cases hc
      exact h rfl)
  | .ok l1, .ok l2 =>
    if h : l1 = l2 then .isTrue (by rw [h]) else .isFalse (by
      intro hc
      cases hc
      exact h rfl)
  | .error _, .ok _ => .isFalse (by intro hc; cases hc)
  | .ok _, .error _ => .isFalse (by intro hc; cases hc)

/-- The spec-as-claimed grammar for one number token: a bare positive
integer, digits only.  This definition follows the claim's words (before
amendment) and exists only for the counterexample. -/
def positiveIntToken (s : List Char) : Option Nat :=
  if ¬ s.isEmpty ∧ s.all Char.isDigit then
    let v := s.foldl (fun acc d => acc * 10 + (d.toNat - 48)) 0
    if 0 < v then some v else none
  else none

/-- The claim's reading of one term: a bare positive integer or a
two-sided range `A-B` of positive integers with `A ≤ B`; an empty term is
not a term. -/
def termNumbersPositive (part0 : List Char) : Option (List Nat) :=
  let part := trimChars part0
  if part.contains '-' then
    match splitChar '-' part with
    | [sa, sb] =>
      match positiveIntToken (trimChars sa), positiveIntToken (trimChars sb) with
      | some a, some b =>
        if a ≤ b then some (List.range' a (b + 1 - a)) else none
      | _, _ => none
    | _ => none
  else (positiveIntToken part).map (fun n => [n])

/-- The claim's characterization of the parser, as stated: every
comma-separated term must be a bare positive integer or a range of
positive integers, denoting at least one number. -/
def specParseNumbersPositive (s : String) : Option (List Nat) :=
  let parts := splitChar ',' s.data
  if parts.all (fun p => (termNumbersPositive p).isSome) then
    let nums := (parts.map (fun p => (termNumbersPositive p).getD [])).flatten
    if nums.isEmpty then none else some (sortNatLe nums.dedup)
  else none

/-- Counterexample to C4 as stated: the input `"0"` is not a
comma-separated sequence of bare positive integers or ranges (so the
claimed characterization denotes failure), yet `parse_number_range`
accepts it and returns `[0]`; likewise `"1,,2"` contains an empty term
but is accepted. -/
theorem C4_counterexample :
    parse_number_range "0" = .ok [0]
    ∧ specParseNumbersPositive "0" = none
    ∧ parse_number_range "1,,2" = .ok [1, 2]
    ∧ specParseNumbersPositive "1,,2" = none := by
  decide

/-! ## Claim C6 -/

/-- A candidate tag is dropped by `cleanup_orphaned_tags` when its id is
among the candidates and no association row for it remains. -/
def orphanAfter (assocs : List AssocRow) (tids : List Int) (t : TagRow) : Prop :=
  t.id ∈ tids ∧ ∀ a ∈ assocs, a.tag_id ≠ t.id

instance (assocs : List AssocRow) (tids : List Int) (t : TagRow) :
    Decidable (orphanAfter assocs tids t) := by
  unfold orphanAfter
  infer_instance

theorem cleanup_orphaned_tags_spec (tids : List Int) (db : DB) :
    (TagManager.cleanup_orphaned_tags db tids).1.items = db.items
    ∧ (TagManager.cleanup_orphaned_tags db tids).1.assocs = db.assocs
    ∧ (TagManager.cleanup_orphaned_tags db tids).1.tags
        = db.tags.filter (fun t => ¬ orphanAfter db.assocs tids t) := by
  induction tids generalizing db with
  | nil =>
    refine ⟨rfl, rfl, (List.filter_eq_self.mpr ?_).symm⟩
    intro t _
    simp [orphanAfter]
  | cons tid rest ih =>
    unfold TagManager.cleanup_orphaned_tags
    dsimp only
    by_cases hc : (db.assocs.filter (fun a => a.tag_id = tid)).length = 0
    · rw [if_pos hc]
      have hnil : db.assocs.filter (fun a => a.tag_id = tid) = [] :=
        List.length_eq_zero.mp hc
      have hnone : ∀ a ∈ db.assocs, ¬ (a.tag_id = tid) := by
        intro a ha hcon
        have hm : a ∈ db.assocs.filter (fun a => a.tag_id = tid) :=
          List.mem_filter.mpr ⟨ha, by simpa using hcon⟩
        rw [hnil] at hm
        exact absurd hm (List.not_mem_nil a)
      have hassoc_id : db.assocs.filter (fun a => ¬ a.tag_id = tid) = db.assocs := by
        rw [List.filter_eq_self]
        intro a ha
        simpa using hnone a ha
      set db1 : DB := { db with
        tags := db.tags.filter (fun t => ¬ t.id = tid),
        assocs := db.assocs.filter (fun a => ¬ a.tag_id = tid) } with hdb1
      rcases ih db1 with ⟨hi, ha, ht⟩
      refine ⟨hi, ?_, ?_⟩
      · rw [ha, hdb1]
        exact hassoc_id
      · have key : ∀ t : TagRow,
            ((¬ t.id = tid) ∧ ¬ orphanAfter db.assocs rest t)
              ↔ ¬ orphanAfter db.assocs (tid :: rest) t := by
          intro t
          unfold orphanAfter
          simp only [List.mem_cons]
          constructor
          · rintro ⟨hne, hnor⟩ ⟨hmem, hnoassoc⟩
            rcases hmem with heq | hmem'
            · exact hne heq
            · exact hnor ⟨hmem', hnoassoc⟩
          · intro hnor
            refine ⟨fun heq => hnor ⟨Or.inl heq,
              fun a ha hcon => hnone a ha (hcon.trans heq)⟩, ?_⟩
            rintro ⟨hmem, hnoassoc⟩
            exact hnor ⟨Or.inr hmem, hnoassoc⟩
        rw [ht, hdb1]
        dsimp only
        rw [hassoc_id, List.filter_filter]
        apply List.filter_congr
        intro t _
        rw [Bool.eq_iff_iff]
        simp only [Bool.and_eq_true, decide_eq_true_eq]
        exact and_comm.trans (key t)
    · rw [if_neg hc]
      rcases ih db with ⟨hi, ha, ht⟩
      refine ⟨hi, ha, ?_⟩
      rw [ht]
      apply List.filter_congr
      intro t _
      have hex : ∃ a ∈ db.assocs, a.tag_id = tid := by
        rcases hfe : db.assocs.filter (fun a => a.tag_id = tid) with _ | ⟨a, rest2⟩
        · exact absurd (by rw [hfe]; rfl) hc
        · have : a ∈ db.assocs.filter (fun a => a.tag_id = tid) := by
            rw [hfe]
            exact List.mem_cons_self a rest2
          rcases List.mem_filter.mp this with ⟨hmem, hp⟩
          exact ⟨a, hmem, by simpa using hp⟩
      have key : (¬ orphanAfter db.assocs rest t)
          ↔ ¬ orphanAfter db.assocs (tid :: rest) t := by
        unfold orphanAfter
        simp only [List.mem_cons]
        constructor
        · rintro hnor ⟨hmem, hnoassoc⟩
          rcases hmem with heq | hmem'
          · rcases hex with ⟨a, ha2, hat⟩
            exact hnoassoc a ha2 (hat.trans heq.symm)
          · exact hnor ⟨hmem', hnoassoc⟩
        · rintro hnor ⟨hmem, hnoassoc⟩
          exact hnor ⟨Or.inr hmem, hnoassoc⟩
      rw [Bool.eq_iff_iff]
      simp only [decide_eq_true_eq]
      exact key

/-- A tag becomes orphaned by deleting item `id` when it was associated
with that item and every one of its associations was with that item. -/
def becameOrphaned (db : DB) (id : Int) (t : TagRow) : Prop :=
  (∃ a ∈ db.assocs, a.item_id = id ∧ a.tag_id = t.id)
  ∧ (∀ a ∈ db.assocs, a.tag_id = t.id → a.item_id = id)

instance (db : DB) (id : Int) (t : TagRow) :
    Decidable (becameOrphaned db id t) := by
  unfold becameOrphaned
  infer_instance

/-- **C6**: `delete(id)` returns `false` (with no error and no change)
when no item has that id; when the item exists it returns `true`, the
item row is gone, its association rows are cascaded away, and exactly
the tags that thereby became orphaned (all their associations were with
the deleted item) are deleted, all within one transaction of the
functional model. -/
theorem C6_delete_cascade (db : DB) (id : Int) (hwf : db.Wf) :
    ((∀ it ∈ db.items, it.id ≠ id) → ItemManager.delete db id = (false, db))
    ∧ ((∃ it ∈ db.items, it.id = id) →
        (ItemManager.delete db id).1 = true
        ∧ (ItemManager.delete db id).2.items
            = db.items.filter (fun it => ¬ it.id = id)
        ∧ (ItemManager.delete db id).2.assocs
            = db.assocs.filter (fun a => ¬ a.item_id = id)
        ∧ (ItemManager.delete db id).2.tags
            = db.tags.filter (fun t => ¬ becameOrphaned db id t)) := by
  constructor
  · intro habs
    have hfil : db.items.filter (fun it => it.id = id) = [] := by
      rw [List.filter_eq_nil_iff]
      intro it hit
      simpa using habs it hit
    have hassoc : db.assocs.filter (fun a => a.item_id = id) = [] := by
      rw [List.filter_eq_nil_iff]
      intro a ha
      rcases hwf.assoc_item_fk a ha with ⟨it, hit, hid⟩
      simp only [decide_eq_true_eq]
      intro hc
      exact habs it hit (by omega)
    have hitems2 : db.items.filter (fun it => ¬ it.id = id) = db.items := by
      rw [List.filter_eq_self]
      intro it hit
      simpa using habs it hit
    have hassoc2 : db.assocs.filter (fun a => ¬ a.item_id = id) = db.assocs := by
      rw [List.filter_eq_self]
      intro a ha
      rcases hwf.assoc_item_fk a ha with ⟨it, hit, hid⟩
      simp only [decide_eq_true_eq]
      intro hc
      exact habs it hit (by omega)
    have htag : ItemManager.get_tag_ids_for_item db id = [] := by
      unfold ItemManager.get_tag_ids_for_item
      rw [hassoc]
      rfl
    unfold ItemManager.delete
    rw [htag, hfil, hitems2, hassoc2]
    rfl
  · rintro ⟨it0, hit0, hid0⟩
    have hres : 0 < (db.items.filter (fun it => it.id = id)).length := by
      have hm : it0 ∈ db.items.filter (fun it => it.id = id) :=
        List.mem_filter.mpr ⟨hit0, by simpa using hid0⟩
      exact List.length_pos.mpr (List.ne_nil_of_mem hm)
    have hketeq : ∀ t : TagRow,
        orphanAfter (db.assocs.filter (fun a => ¬ a.item_id = id))
            (ItemManager.get_tag_ids_for_item db id) t
          ↔ becameOrphaned db id t := by
      intro t
      unfold orphanAfter becameOrphaned ItemManager.get_tag_ids_for_item
      constructor
      · rintro ⟨hmem, hnoassoc⟩
        rcases List.mem_map.mp hmem with ⟨a, hmf, hat⟩
        rcases List.mem_filter.mp hmf with ⟨ha, hp⟩
        refine ⟨⟨a, ha, by simpa using hp, hat⟩, ?_⟩
        intro b hb hbt
        by_contra hbc
        exact hnoassoc b (List.mem_filter.mpr ⟨hb, by simpa using hbc⟩) hbt
      · rintro ⟨⟨a, ha, hai, hat⟩, hall⟩
        refine ⟨List.mem_map.mpr ⟨a,
          List.mem_filter.mpr ⟨ha, by simpa using hai⟩, hat⟩, ?_⟩
        intro b hbf hbt
        rcases List.mem_filter.mp hbf with ⟨hb, hbp⟩
        have := hall b hb hbt
        simp only [decide_eq_true_eq] at hbp
        exact hbp this
    have hfe_iff : db.assocs.filter (fun a => a.item_id = id) = []
        → ∀ t : TagRow, ¬ becameOrphaned db id t := by
      intro hfe t hor
      rcases hor.1 with ⟨a, ha, hai, hat⟩
      have hm : a ∈ db.assocs.filter (fun a => a.item_id = id) :=
        List.mem_filter.mpr ⟨ha, by simpa using hai⟩
      rw [hfe] at hm
      exact absurd hm (List.not_mem_nil a)
    unfold ItemManager.delete
    dsimp only
    rcases htg : ItemManager.get_tag_ids_for_item db id with _ | ⟨x, xs⟩
    · rw [if_neg (by simp)]
      refine ⟨by simp only [decide_eq_true_eq]; omega, rfl, rfl, ?_⟩
      have hfe : db.assocs.filter (fun a => a.item_id = id) = [] := by
        unfold ItemManager.get_tag_ids_for_item at htg
        simpa using htg
      refine (List.filter_eq_self.mpr ?_).symm
      intro t _
      simp only [decide_eq_true_eq]
      exact hfe_iff hfe t
    · rw [if_pos ⟨by omega, by simp⟩]
      rw [htg] at hketeq
      rcases cleanup_orphaned_tags_spec (x :: xs)
        { db with
          items := db.items.filter (fun it => ¬ it.id = id),
          assocs := db.assocs.filter (fun a => ¬ a.item_id = id) }
        with ⟨hi, ha, ht⟩
      refine ⟨by simp only [decide_eq_true_eq]; omega, ?_, ?_, ?_⟩
      · rw [hi]
      · rw [ha]
      · rw [ht]
        apply List.filter_congr
        intro t _
        rw [Bool.eq_iff_iff]
        simp only [decide_eq_true_eq]
        exact not_congr (hketeq t)

/-- A concrete store for the delete witness: item 1 carries tags `a` and
`b`, item 2 carries `b` only, so deleting item 1 orphans exactly `a`. -/
def dbDelW : DB :=
  ⟨[⟨1, "f", "/p", "h1", "file", 0⟩, ⟨2, "g", "/q", "h2", "file", 1⟩],
   [⟨1, "a"⟩, ⟨2, "b"⟩],
   [⟨1, 1⟩, ⟨1, 2⟩, ⟨2, 2⟩]⟩

/-- Witness for C6: on `dbDelW`, deleting a missing id returns `false`
unchanged; deleting item 1 returns `true` and leaves only tag `b`. -/
theorem C6_delete_cascade_witness :
    dbDelW.Wf
    ∧ ItemManager.delete dbDelW 99 = (false, dbDelW)
    ∧ (ItemManager.delete dbDelW 1).1 = true
    ∧ (ItemManager.delete dbDelW 1).2.tags = [⟨2, "b"⟩] := by
  have hwf : dbDelW.Wf :=
    ⟨by decide, by decide, by decide, by decide, by decide, by decide⟩
  have h99 := C6_delete_cascade dbDelW 99 hwf
  have h1 := C6_delete_cascade dbDelW 1 hwf
  have hex : ∃ it ∈ dbDelW.items, it.id = 1 :=
    ⟨⟨1, "f", "/p", "h1", "file", 0⟩, by decide, by decide⟩
  refine ⟨hwf, h99.1 (by decide), (h1.2 hex).1, ?_⟩
  rw [(h1.2 hex).2.2.2]
  decide

/-! ## Claim C8 -/

theorem length_filter_not_add {α : Type} (p : α → Prop) [DecidablePred p]
    (l : List α) :
    (l.filter (fun a => p a)).length + (l.filter (fun a => ¬ p a)).length
      = l.length := by
  induction l with
  | nil => rfl
  | cons a l ih =>
    simp only [List.filter_cons]
    by_cases h : p a
    · rw [if_pos (decide_eq_true h), if_neg (by simp [h])]
      simp only [List.length_cons]
      omega
    · rw [if_neg (by simp [h]), if_pos (decide_eq_true h)]
      simp only [List.length_cons]
      omega

theorem find_or_create_tag_assocs (db : DB) (name : String) :
    (find_or_create_tag db name).2.assocs = db.assocs
    ∧ (find_or_create_tag db name).2.items = db.items := by
  unfold find_or_create_tag
  rcases h : db.tags.find? (fun t => t.name = name) with _ | t <;>
    rw [h] <;> exact ⟨rfl, rfl⟩

theorem add_to_item_count (db : DB) (itemId : Int) (tags : List String) :
    (TagManager.add_to_item db itemId tags).1 + db.assocs.length
      = (TagManager.add_to_item db itemId tags).2.assocs.length := by
  induction tags generalizing db with
  | nil => simp [TagManager.add_to_item]
  | cons tag rest ih =>
    unfold TagManager.add_to_item
    dsimp only
    by_cases hemp : (trimChars tag.data).isEmpty = true
    · rw [if_pos hemp]
      exact ih db
    · rw [if_neg hemp]
      rcases hfc : find_or_create_tag db (String.mk (trimChars tag.data))
        with ⟨tid, db1⟩
      dsimp only
      have hfa : db1.assocs = db.assocs := by
        have := (find_or_create_tag_assocs db (String.mk (trimChars tag.data))).1
        rw [hfc] at this
        exact this
      by_cases hpres : db1.assocs.any
          (fun a => a.item_id = itemId ∧ a.tag_id = tid) = true
      · rw [if_pos hpres, if_pos hpres]
        have := ih db1
        rw [hfa] at this
        omega
      · rw [if_neg hpres, if_neg hpres]
        have h2 := ih { db1 with assocs := db1.assocs ++ [⟨itemId, tid⟩] }
        dsimp only at h2
        rw [List.length_append] at h2
        simp only [List.length_cons, List.length_nil] at h2
        have hlen : db1.assocs.length = db.assocs.length := by rw [hfa]
        omega

theorem removeLoop_count (db : DB) (itemId : Int) (tags : List String) :
    (TagManager.removeLoop db itemId tags).1
      + (TagManager.removeLoop db itemId tags).2.2.assocs.length
      = db.assocs.length := by
  induction tags generalizing db with
  | nil => simp [TagManager.removeLoop]
  | cons tag rest ih =>
    unfold TagManager.removeLoop
    dsimp only
    by_cases hemp : (trimChars tag.data).isEmpty = true
    · rw [if_pos hemp]
      exact ih db
    · rw [if_neg hemp]
      rcases hfd : db.tags.find?
          (fun tr => tr.name = String.mk (trimChars tag.data)) with _ | tr
      · rw [hfd]
        exact ih db
      · rw [hfd]
        dsimp only
        have hsplit := length_filter_not_add
          (fun a : AssocRow => a.item_id = itemId ∧ a.tag_id = tr.id) db.assocs
        have hkeep := fun (a : AssocRow) =>
          ¬ (a.item_id = itemId ∧ a.tag_id = tr.id)
        have h2 := ih { db with
          assocs := db.assocs.filter (fun a => ¬ (a.item_id = itemId ∧ a.tag_id = tr.id)) }
        dsimp only at h2
        by_cases haff : (db.assocs.filter
            (fun a => a.item_id = itemId ∧ a.tag_id = tr.id)).length > 0
        · rw [if_pos haff]
          dsimp only
          omega
        · rw [if_neg haff]
          dsimp only
          omega

theorem cleanup_preserves_assocs (tids : List Int) (db : DB) :
    (TagManager.cleanup_orphaned_tags db tids).1.assocs = db.assocs :=
  (cleanup_orphaned_tags_spec tids db).2.1

/-- **C8**: `add_to_item` returns exactly the number of associations that
did not previously exist (the database gains exactly that many rows),
`remove_from_item` returns exactly the number of associations actually
deleted (the database loses exactly that many rows); adding a tag the
item already carries returns 0 and leaves the store unchanged, and
removing a tag the item does not carry returns 0 and leaves the store
unchanged. -/
theorem C8_tag_add_remove_idempotence (db : DB) (itemId : Int)
    (tags : List String) (t : String) :
    ((TagManager.add_to_item db itemId tags).1 + db.assocs.length
        = (TagManager.add_to_item db itemId tags).2.assocs.length)
    ∧ ((TagManager.remove_from_item db itemId tags).1
        + (TagManager.remove_from_item db itemId tags).2.assocs.length
        = db.assocs.length)
    ∧ (∀ tr : TagRow,
        db.tags.find? (fun x => x.name = String.mk (trimChars t.data)) = some tr →
        (⟨itemId, tr.id⟩ : AssocRow) ∈ db.assocs →
        TagManager.add_to_item db itemId [t] = (0, db))
    ∧ ((∀ tr : TagRow,
        db.tags.find? (fun x => x.name = String.mk (trimChars t.data)) = some tr →
        (⟨itemId, tr.id⟩ : AssocRow) ∉ db.assocs) →
        TagManager.remove_from_item db itemId [t] = (0, db)) := by
  refine ⟨add_to_item_count db itemId tags, ?_, ?_, ?_⟩
  · unfold TagManager.remove_from_item
    dsimp only
    rw [cleanup_preserves_assocs]
    exact removeLoop_count db itemId tags
  · intro tr hfind hmem
    unfold TagManager.add_to_item
    dsimp only
    by_cases hemp : (trimChars t.data).isEmpty = true
    · rw [if_pos hemp]
      rfl
    · rw [if_neg hemp]
      have hfc : find_or_create_tag db (String.mk (trimChars t.data)) = (tr.id, db) := by
        unfold find_or_create_tag
        rw [hfind]
      rw [hfc]
      have hpres : db.assocs.any
          (fun a => a.item_id = itemId ∧ a.tag_id = tr.id) = true := by
        rw [List.any_eq_true]
        exact ⟨⟨itemId, tr.id⟩, hmem, by simp⟩
      rw [if_pos hpres, if_pos hpres]
      rfl
  · intro habs
    unfold TagManager.remove_from_item TagManager.removeLoop
    dsimp only
    by_cases hemp : (trimChars t.data).isEmpty = true
    · rw [if_pos hemp]
      rfl
    · rw [if_neg hemp]
      rcases hfd : db.tags.find?
          (fun tr => tr.name = String.mk (trimChars t.data)) with _ | tr
      · rw [hfd]
        rfl
      · rw [hfd]
        dsimp only
        have hnil : db.assocs.filter
            (fun a => a.item_id = itemId ∧ a.tag_id = tr.id) = [] := by
          rw [List.filter_eq_nil_iff]
          intro a ha
          simp only [decide_eq_true_eq, not_and]
          intro h1 h2
          have : a = (⟨itemId, tr.id⟩ : AssocRow) := by
            cases a
            simp_all
          exact habs tr hfd (this ▸ ha)
        have hid : db.assocs.filter
            (fun a => ¬ (a.item_id = itemId ∧ a.tag_id = tr.id)) = db.assocs := by
          rw [List.filter_eq_self]
          intro a ha
          simp only [decide_eq_true_eq, not_and]
          intro h1 h2
          have : a = (⟨itemId, tr.id⟩ : AssocRow) := by
            cases a
            simp_all
          exact habs tr hfd (this ▸ ha)
        rw [hnil, hid]
        rw [if_neg (by simp)]
        rfl

/-- Witness for C8: on `dbDelW`, adding tag `b` (already carried) to
item 2 returns 0 unchanged, removing tag `a` (not carried by item 2)
returns 0 unchanged, and the count equation instantiates on a real
addition of a new tag `c`. -/
theorem C8_tag_add_remove_idempotence_witness :
    TagManager.add_to_item dbDelW 2 ["b"] = (0, dbDelW)
    ∧ TagManager.remove_from_item dbDelW 2 ["a"] = (0, dbDelW)
    ∧ (TagManager.add_to_item dbDelW 2 ["c"]).1 + dbDelW.assocs.length
        = (TagManager.add_to_item dbDelW 2 ["c"]).2.assocs.length := by
  have h := C8_tag_add_remove_idempotence dbDelW 2 ["c"] "b"
  have h2 := C8_tag_add_remove_idempotence dbDelW 2 ["c"] "a"
  refine ⟨h.2.2.1 ⟨2, "b"⟩ (by decide) (by decide), h2.2.2.2 ?_, h.1⟩
  intro tr hfind
  have hone : dbDelW.tags.find?
      (fun x => x.name = String.mk (trimChars "a".data)) = some ⟨1, "a"⟩ := by
    decide
  rw [hone] at hfind
  cases hfind
  decide

/-! ## Claim C2 -/

/-- Program order of the pop per-item steps (src/cli/pop.rs): conflict
check, path resolution, source check, move, row delete, undo move. -/
def popStepRank : BatchStep → Nat
  | .checkConflict => 0
  | .resolvePath => 1
  | .verifySource => 2
  | .fsMove => 3
  | .dbDelete => 4
  | .undoMove => 5
  | .fsDelete => 6

/-- Program order of the remove per-item steps (src/cli/remove.rs): path
resolution, then the database row delete, then the source-existence
check, then the artifact deletion. -/
def removeStepRank : BatchStep → Nat
  | .resolvePath => 0
  | .dbDelete => 1
  | .verifySource => 2
  | .fsDelete => 3
  | .checkConflict => 4
  | .fsMove => 5
  | .undoMove => 6

/-- The per-item step order the claim asserts (for remove): conflict
check, path resolution, artifact-existence check, filesystem deletion,
and only then the row deletion. -/
def claimedRemoveRank : BatchStep → Nat
  | .checkConflict => 0
  | .resolvePath => 1
  | .verifySource => 2
  | .fsDelete => 3
  | .dbDelete => 4
  | .fsMove => 5
  | .undoMove => 6

/-- Counterexample to C2 as stated: in a batch remove of an ordinary
item (artifact present, store healthy), the emitted step trace is
resolve path, delete row, check existence, delete artifact — the store
row is deleted *before* the artifact, and the trace violates the
claimed fs-mutation-before-store-mutation order. -/
theorem C2_counterexample :
    (removeProcessItem dbDelW ⟨true, false, true, true⟩
        ⟨1, "f", "/p", "h1", "file", 0⟩).2.2
      = [.resolvePath, .dbDelete, .verifySource, .fsDelete]
    ∧ ¬ ((removeProcessItem dbDelW ⟨true, false, true, true⟩
        ⟨1, "f", "/p", "h1", "file", 0⟩).2.2.Pairwise
          (fun s1 s2 => claimedRemoveRank s1 < claimedRemoveRank s2)) := by
  decide

/-- **C2 (amended)**: every pop per-item pass performs its steps in the
order conflict check → resolve storage path → verify source exists →
move → store row delete (→ best-effort undo move), as the claim states;
but every remove per-item pass performs resolve storage path → store
row delete → verify artifact exists → artifact deletion: the store
mutation precedes the filesystem mutation, and there is no conflict
check. -/
theorem C2_per_item_step_order (db : DB) (multi : Bool)
    (envP : PopItemEnv) (envR : RemoveItemEnv) (item : ItemRow) :
    ((popProcessItem db multi envP item).2.2.Pairwise
        (fun s1 s2 => popStepRank s1 < popStepRank s2))
    ∧ ((removeProcessItem db envR item).2.2.Pairwise
        (fun s1 s2 => removeStepRank s1 < removeStepRank s2)) := by
  constructor
  · unfold popProcessItem
    repeat' split
    all_goals try dsimp only
    all_goals repeat' split
    all_goals try dsimp only
    all_goals decide
  · unfold removeProcessItem
    repeat' split
    all_goals try dsimp only
    all_goals repeat' split
    all_goals try dsimp only
    all_goals decide

/-! ## Claim C7 -/

theorem popProcessItem_multi_no_hardError (db : DB) (env : PopItemEnv)
    (item : ItemRow) :
    (popProcessItem db true env item).1 ≠ ItemOutcome.hardError := by
  unfold popProcessItem
  repeat' split
  all_goals intro hcon
  all_goals try simp_all
  all_goals generalize hg : (ItemManager.delete db item.id).1 = b at hcon
  all_goals cases b <;> simp_all

theorem popLoop_multi_no_abort (envs : Nat → PopItemEnv) (idx : Nat)
    (items : List (Nat × ItemRow)) (db : DB) :
    (popLoop db true envs idx items).2.2 = false := by
  induction items generalizing db idx with
  | nil => rfl
  | cons hd rest ih =>
    rcases hd with ⟨n, item⟩
    unfold popLoop
    dsimp only
    rcases hp : (popProcessItem db true (envs idx) item).1
    case hardError =>
      exact absurd hp (popProcessItem_multi_no_hardError db (envs idx) item)
    all_goals dsimp only
    all_goals exact ih _ _

theorem popLoop_abort_counts (envs : Nat → PopItemEnv) (db : DB)
    (items : List (Nat × ItemRow)) :
    (popLoop db (decide (items.length > 1)) envs 0 items).2.2 = true →
    (popLoop db (decide (items.length > 1)) envs 0 items).1 = ⟨0, 0, 0⟩ := by
  intro habort
  rcases items with _ | ⟨⟨n, item⟩, rest⟩
  · cases habort
  · rcases rest with _ | ⟨y, rest2⟩
    · have hm : (decide (([(n, item)] : List (Nat × ItemRow)).length > 1)) = false := rfl
      rw [hm] at habort ⊢
      unfold popLoop at habort ⊢
      dsimp only at habort ⊢
      generalize hp : (popProcessItem db false (envs 0) item).1 = o at habort ⊢
      cases o
      all_goals try dsimp only at habort ⊢
      all_goals cases habort
    · have hm : (decide (((n, item) :: y :: rest2).length > 1)) = true := by
        simp only [decide_eq_true_eq, List.length_cons]
        omega
      rw [hm] at habort
      rw [popLoop_multi_no_abort] at habort
      cases habort

/-- A concrete pop environment where everything succeeds. -/
def envAllOkP : PopItemEnv := ⟨false, true, true, true, true, false⟩

/-- Counterexample to C7 as stated: a batch pop of two valid ordinals
whose multi-item confirmation is declined returns overall success
("Operation cancelled." then `Ok(())`) although zero requested items
completed. -/
theorem C7_counterexample :
    (popBatch dbTieW [] "1,2" false (fun _ => envAllOkP)).1 = CmdResult.ok
    ∧ ¬ ((popBatch dbTieW [] "1,2" false (fun _ => envAllOkP)).2.1.succ > 0) := by
  decide

/-- **C7 (amended)**: a batch pop returns overall success exactly when at
least one requested item completed fully or the multi-item confirmation
was declined (a cancelled run returns `Ok` with zero successes); a batch
remove returns overall success exactly when at least one requested item
completed; per-item problems are accumulated in the returned counters
rather than re-raised. -/
theorem C7_batch_overall_result (db : DB) (tags : List String)
    (numsStr : String) (confirm : Bool) (envsP : Nat → PopItemEnv)
    (envsR : Nat → RemoveItemEnv) :
    ((popBatch db tags numsStr confirm envsP).1 = CmdResult.ok
      ↔ ((popBatch db tags numsStr confirm envsP).2.1.succ > 0
          ∨ (popBatch db tags numsStr confirm envsP).2.2.2 = true))
    ∧ ((removeBatch db tags numsStr envsR).1 = CmdResult.ok
      ↔ (removeBatch db tags numsStr envsR).2.1.succ > 0) := by
  constructor
  · unfold popBatch
    rcases hpl : parse_number_range numsStr with e | nums
    · simp
    · dsimp only
      by_cases hie : (mapOrdinals (snapshotSorted db tags) nums).1.isEmpty = true
      · rw [if_pos hie]
        simp
      · rw [if_neg hie]
        by_cases hcn : (mapOrdinals (snapshotSorted db tags) nums).1.length > 1
            ∧ ¬ confirm = true
        · rw [if_pos hcn]
          simp
        · rw [if_neg hcn]
          by_cases habort : (popLoop db
              ((mapOrdinals (snapshotSorted db tags) nums).1.length > 1) envsP 0
              (mapOrdinals (snapshotSorted db tags) nums).1).2.2 = true
          · rw [if_pos habort]
            have hz := popLoop_abort_counts envsP db
              (mapOrdinals (snapshotSorted db tags) nums).1 habort
            rw [hz]
            simp
          · rw [if_neg habort]
            by_cases hsucc : (popLoop db
                ((mapOrdinals (snapshotSorted db tags) nums).1.length > 1) envsP 0
                (mapOrdinals (snapshotSorted db tags) nums).1).1.succ > 0
            · rw [if_pos hsucc]
              simp [hsucc]
            · rw [if_neg hsucc]
              simp [hsucc]
  · unfold removeBatch
    rcases hpl : parse_number_range numsStr with e | nums
    · simp
    · dsimp only
      by_cases hie : (mapOrdinals (snapshotSorted db tags) nums).1.isEmpty = true
      · rw [if_pos hie]
        simp
      · rw [if_neg hie]
        by_cases hsucc : (removeBatchLoop db envsR 0
            (mapOrdinals (snapshotSorted db tags) nums).1).1.succ > 0
        · rw [if_pos hsucc]
          simp [hsucc]
        · rw [if_neg hsucc]
          simp [hsucc]

/-! ## Claim C10 -/

theorem delete_items_eq (db : DB) (id : Int) :
    (ItemManager.delete db id).2.items
      = db.items.filter (fun it => ¬ it.id = id) := by
  unfold ItemManager.delete
  dsimp only
  split
  · exact (cleanup_orphaned_tags_spec _ _).1
  · rfl

theorem delete_true_of_mem {db : DB} {item : ItemRow}
    (h : item ∈ db.items) :
    (ItemManager.delete db item.id).1 = true := by
  unfold ItemManager.delete
  dsimp only
  simp only [decide_eq_true_eq]
  have hm : item ∈ db.items.filter (fun it => it.id = item.id) :=
    List.mem_filter.mpr ⟨h, by simp⟩
  have := List.length_pos.mpr (List.ne_nil_of_mem hm)
  omega

theorem removeProcessItem_missing {db : DB} {env : RemoveItemEnv}
    {item : ItemRow} (hro : env.resolveOk = true) (hde : env.dbErr = false)
    (hse : env.sourceExists = false) (hmem : item ∈ db.items) :
    removeProcessItem db env item
      = (ItemOutcome.successMissing, (ItemManager.delete db item.id).2,
          [BatchStep.resolvePath, BatchStep.dbDelete, BatchStep.verifySource]) := by
  unfold removeProcessItem
  rw [if_neg (by simp [hro]), if_neg (by simp [hde])]
  dsimp only
  rw [if_pos (delete_true_of_mem hmem), if_neg (by simp [hse])]

theorem removeBatchLoop_missing (envs : Nat → RemoveItemEnv)
    (henv : ∀ i, (envs i).resolveOk = true ∧ (envs i).dbErr = false
      ∧ (envs i).sourceExists = false) :
    ∀ (items : List (Nat × ItemRow)) (db : DB) (idx : Nat),
      (∀ p ∈ items, p.2 ∈ db.items) →
      ((items.map (fun p => p.2.id)).Nodup) →
      (removeBatchLoop db envs idx items).1
          = ⟨items.length, 0, 0⟩
        ∧ (removeBatchLoop db envs idx items).2.items
          = db.items.filter
              (fun it => ¬ it.id ∈ items.map (fun p => p.2.id)) := by
  intro items
  induction items with
  | nil =>
    intro db idx _ _
    exact ⟨rfl, (List.filter_eq_self.mpr (by simp)).symm⟩
  | cons hd rest ih =>
    rintro db idx hmem hnodup
    rcases hd with ⟨n, item⟩
    have hx : item ∈ db.items := hmem (n, item) (List.mem_cons_self _ _)
    unfold removeBatchLoop
    dsimp only
    rw [removeProcessItem_missing (henv idx).1 (henv idx).2.1
      (henv idx).2.2 hx]
    dsimp only
    have hnodup2 := hnodup
    simp only [List.map_cons, List.nodup_cons] at hnodup2
    rcases hnodup2 with ⟨hni, hnd⟩
    have hmem2 : ∀ p ∈ rest, p.2 ∈ (ItemManager.delete db item.id).2.items := by
      intro p hp
      rw [delete_items_eq]
      refine List.mem_filter.mpr ⟨hmem p (List.mem_cons_of_mem _ hp), ?_⟩
      simp only [decide_eq_true_eq]
      intro hc
      exact hni (hc ▸ List.mem_map.mpr ⟨p, hp, rfl⟩)
    rcases ih (ItemManager.delete db item.id).2 (idx + 1) hmem2 hnd
      with ⟨hc, hi⟩
    constructor
    · rw [hc]
      rfl
    · rw [hi, delete_items_eq, List.filter_filter]
      apply List.filter_congr
      intro it _
      rw [Bool.eq_iff_iff]
      simp only [Bool.and_eq_true, decide_eq_true_eq, List.map_cons,
        List.mem_cons]
      constructor
      · rintro ⟨hnr, hne⟩ (heq | hmr)
        · exact hne heq
        · exact hnr hmr
      · intro hno
        exact ⟨fun hmr => hno (Or.inr hmr), fun heq => hno (Or.inl heq)⟩

theorem mapOrdinals_mem_spec (sorted : List ItemRow) (nums : List Nat) :
    ∀ p ∈ (mapOrdinals sorted nums).1,
      p.1 ∈ nums ∧ 0 < p.1 ∧ sorted[p.1 - 1]? = some p.2 := by
  induction nums with
  | nil =>
    intro p hp
    cases hp
  | cons n rest ih =>
    intro p hp
    unfold mapOrdinals at hp
    dsimp only at hp
    by_cases h : 0 < n ∧ n ≤ sorted.length
    · rw [dif_pos h] at hp
      rcases List.mem_cons.mp hp with rfl | hp2
      · refine ⟨List.mem_cons_self _ _, h.1, ?_⟩
        dsimp only
        rw [List.getElem?_eq_getElem (by omega), List.get_eq_getElem]
      · rcases ih p hp2 with ⟨h1, h2, h3⟩
        exact ⟨List.mem_cons_of_mem n h1, h2, h3⟩
    · rw [dif_neg h] at hp
      rcases ih p hp with ⟨h1, h2, h3⟩
      exact ⟨List.mem_cons_of_mem n h1, h2, h3⟩

theorem id_index_inj {sorted : List ItemRow}
    (hids : (sorted.map ItemRow.id).Nodup) {i j : Nat} {x y : ItemRow}
    (hx : sorted[i]? = some x) (hy : sorted[j]? = some y)
    (hxy : x.id = y.id) : i = j := by
  rcases List.getElem?_eq_some.mp hx with ⟨hi, hxe⟩
  rcases List.getElem?_eq_some.mp hy with ⟨hj, hye⟩
  have hi2 : i < (sorted.map ItemRow.id).length := by
    simpa using hi
  have hj2 : j < (sorted.map ItemRow.id).length := by
    simpa using hj
  have h1 : (sorted.map ItemRow.id)[i] = (sorted.map ItemRow.id)[j] := by
    rw [List.getElem_map, List.getElem_map, hxe, hye]
    exact hxy
  exact (List.Nodup.getElem_inj_iff hids).mp h1

theorem mapOrdinals_ids_nodup {sorted : List ItemRow} {nums : List Nat}
    (hnn : nums.Nodup) (hids : (sorted.map ItemRow.id).Nodup) :
    ((mapOrdinals sorted nums).1.map (fun p => p.2.id)).Nodup := by
  induction nums with
  | nil => exact List.nodup_nil
  | cons n rest ih =>
    rcases List.nodup_cons.mp hnn with ⟨hnot, hrest⟩
    unfold mapOrdinals
    dsimp only
    by_cases h : 0 < n ∧ n ≤ sorted.length
    · rw [dif_pos h]
      rw [List.map_cons]
      refine List.nodup_cons.mpr ⟨?_, ih hrest⟩
      intro hmem
      rcases List.mem_map.mp hmem with ⟨q, hq, hqid⟩
      rcases mapOrdinals_mem_spec sorted rest q hq with ⟨hq1, hq2, hq3⟩
      have hhead : sorted[n - 1]? = some (sorted.get ⟨n - 1, by omega⟩) := by
        rw [List.getElem?_eq_getElem (by omega), List.get_eq_getElem]
      have hidx : q.1 - 1 = n - 1 := id_index_inj hids hq3 hhead hqid
      have hq1n : q.1 = n := by omega
      exact hnot (hq1n ▸ hq1)
    · rw [dif_neg h]
      exact ih hrest

theorem mem_of_mem_list {db : DB} {tags : List String} {x : ItemRow}
    (h : x ∈ ItemManager.list db tags) : x ∈ db.items := by
  unfold ItemManager.list at h
  split at h
  · exact h
  · exact (List.mem_filter.mp h).1

theorem mem_of_mem_snapshot {db : DB} {tags : List String} {x : ItemRow}
    (h : x ∈ snapshotSorted db tags) : x ∈ db.items :=
  mem_of_mem_list ((sortByPushedDesc_perm _).mem_iff.mp h)

theorem snapshot_ids_nodup {db : DB} (hwf : db.Wf) (tags : List String) :
    ((snapshotSorted db tags).map ItemRow.id).Nodup := by
  have h1 : ((ItemManager.list db tags).map ItemRow.id).Nodup := by
    have hpw := List.pairwise_map.mpr (list_pairwise_id hwf tags)
    exact hpw.imp (fun hlt => ne_of_lt hlt)
  exact ((sortByPushedDesc_perm (ItemManager.list db tags)).map
    ItemRow.id).symm.nodup h1

theorem insertNatLe_perm (n : Nat) (l : List Nat) :
    (insertNatLe n l).Perm (n :: l) := by
  induction l with
  | nil => exact List.Perm.refl _
  | cons m ms ih =>
    simp only [insertNatLe]
    split
    · exact List.Perm.refl _
    · exact (ih.cons m).trans (List.Perm.swap n m ms)

theorem sortNatLe_perm (l : List Nat) : (sortNatLe l).Perm l := by
  induction l with
  | nil => exact List.Perm.refl _
  | cons n ns ih =>
    exact (insertNatLe_perm n (sortNatLe ns)).trans (ih.cons n)

theorem parse_number_range_nodup {s : String} {nums : List Nat}
    (h : parse_number_range s = .ok nums) : nums.Nodup := by
  unfold parse_number_range at h
  rcases hl : parseLoop [] (splitChar ',' s.data) with e | ns
  · rw [hl] at h
    cases h
  · rw [hl] at h
    dsimp only at h
    split at h
    · cases h
    · cases h
      exact (sortNatLe_perm ns.dedup).symm.nodup (List.nodup_dedup ns)

/-- **C10**: in a batch remove whose storage-path resolution and store
are healthy but whose artifacts are all missing from the content
directory, each item's pass reports the `successMissing` message branch
(store row deleted, message printed, counted as a success), and the
batch as a whole returns overall success with every resolved item
counted and its row removed from the store. -/
theorem C10_remove_missing_artifact (db : DB) (tags : List String)
    (numsStr : String) (nums : List Nat) (envs : Nat → RemoveItemEnv)
    (hwf : db.Wf)
    (henv : ∀ i, (envs i).resolveOk = true ∧ (envs i).dbErr = false
      ∧ (envs i).sourceExists = false)
    (hparse : parse_number_range numsStr = .ok nums)
    (hne : (mapOrdinals (snapshotSorted db tags) nums).1 ≠ []) :
    (∀ item ∈ db.items, ∀ i : Nat,
      removeProcessItem db (envs i) item
        = (ItemOutcome.successMissing, (ItemManager.delete db item.id).2,
            [BatchStep.resolvePath, BatchStep.dbDelete, BatchStep.verifySource]))
    ∧ (removeBatch db tags numsStr envs).1 = CmdResult.ok
    ∧ (removeBatch db tags numsStr envs).2.1
        = ⟨(mapOrdinals (snapshotSorted db tags) nums).1.length, 0, 0⟩
    ∧ (∀ p ∈ (mapOrdinals (snapshotSorted db tags) nums).1,
        ∀ it ∈ (removeBatch db tags numsStr envs).2.2.items, it.id ≠ p.2.id) := by
  have hloop := removeBatchLoop_missing envs henv
    (mapOrdinals (snapshotSorted db tags) nums).1 db 0
    (fun p hp => mem_of_mem_snapshot (by
      have := mapOrdinals_mem_spec (snapshotSorted db tags) nums p hp
      rcases List.getElem?_eq_some.mp this.2.2 with ⟨hlt, hel⟩
      rw [← hel]
      exact List.getElem_mem hlt))
    (mapOrdinals_ids_nodup (parse_number_range_nodup hparse)
      (snapshot_ids_nodup hwf tags))
  have hbatch : removeBatch db tags numsStr envs
      = (CmdResult.ok,
          ⟨(mapOrdinals (snapshotSorted db tags) nums).1.length, 0, 0⟩,
          (removeBatchLoop db envs 0
            (mapOrdinals (snapshotSorted db tags) nums).1).2) := by
    unfold removeBatch
    rw [hparse]
    dsimp only
    rw [if_neg (by simpa using hne)]
    rw [if_pos (by
      rw [hloop.1]
      have : (mapOrdinals (snapshotSorted db tags) nums).1.length ≠ 0 := by
        intro hc
        exact hne (List.length_eq_zero.mp hc)
      dsimp only
      omega)]
    rw [hloop.1]
  refine ⟨?_, ?_, ?_, ?_⟩
  · intro item hmem i
    exact removeProcessItem_missing (henv i).1 (henv i).2.1 (henv i).2.2 hmem
  · rw [hbatch]
  · rw [hbatch]
  · intro p hp it hit
    rw [hbatch] at hit
    dsimp only at hit
    rw [hloop.2] at hit
    rcases List.mem_filter.mp hit with ⟨_, hkeep⟩
    simp only [decide_eq_true_eq] at hkeep
    intro hc
    exact hkeep (hc ▸ List.mem_map.mpr ⟨p, hp, rfl⟩)

/-- Witness for C10: removing ordinal 1 from `dbDelW` with the artifact
already absent returns overall success with one success and no
failures. -/
theorem C10_remove_missing_artifact_witness :
    dbDelW.Wf
    ∧ parse_number_range "1" = .ok [1]
    ∧ (removeBatch dbDelW [] "1" (fun _ => ⟨true, false, false, true⟩)).1
        = CmdResult.ok
    ∧ (removeBatch dbDelW [] "1" (fun _ => ⟨true, false, false, true⟩)).2.1
        = ⟨1, 0, 0⟩ := by
  have hwf : dbDelW.Wf :=
    ⟨by decide, by decide, by decide, by decide, by decide, by decide⟩
  have h := C10_remove_missing_artifact dbDelW [] "1" [1]
    (fun _ => ⟨true, false, false, true⟩) hwf
    (fun _ => ⟨rfl, rfl, rfl⟩) (by decide) (by decide)
  refine ⟨hwf, by decide, h.2.1, ?_⟩
  rw [h.2.2.1]
  decide

end Fstk
